import Mathlib

set_option maxRecDepth 4000

/-!
Shallow embedding of the HLS stream-proxy worker (src/worker.js).

Strings are embedded as Lean `String` / `List Char`; machine time (Date.now)
as a `now : Nat` parameter (milliseconds); the in-memory session `Map` as an
association list with unique keys; fallible primitives return `Option`.
Outbound fetches are not performed: the datacrate handler is modelled up to
the point where it either returns an error response or commits to an
upstream fetch, and the result constructor records which fetch (if any)
would be issued and at which URL.

The JavaScript base64 primitives `btoa`/`atob` are platform built-ins, not
repository code.  `btoa` is the standard base64 encoder.  `atob` is embedded
with the deployment runtime's forgiving behaviour, documented by the spec
(section 4.1 and section 9): trailing `=` padding is tolerated in any excess
amount and simply ignored, while any character outside the base64 alphabet
(or a leftover group of a single character) makes decoding fail.  The worker
only ever feeds `atob` URL path segments, which contain no whitespace, so
whitespace skipping is not modelled.
-/

/-- Base64 alphabet in index order, as used by `btoa` and `atob`. -/
def base64Chars : List Char :=
  "ABCDEFGHIJKLMNOPQRSTUVWXYZabcdefghijklmnopqrstuvwxyz0123456789+/".data

/-- Character of the base64 alphabet at index `n` (dummy `?` out of range). -/
def b64char (n : Nat) : Char := base64Chars.getD n '?'

/-- Index of `c` in the base64 alphabet, `none` if `c` is not in it. -/
def b64val (c : Char) : Option Nat :=
  let i := base64Chars.indexOf c
  if i < 64 then some i else none

/-- Base64 encoding of a byte list, with `=` padding (the body of `btoa`). -/
def btoaBytes : List Nat → List Char
  | [] => []
  | [b1] => [b64char (b1 / 4), b64char (b1 % 4 * 16), '=', '=']
  | [b1, b2] => [b64char (b1 / 4), b64char (b1 % 4 * 16 + b2 / 16), b64char (b2 % 16 * 4), '=']
  | b1 :: b2 :: b3 :: rest =>
    b64char (b1 / 4) :: b64char (b1 % 4 * 16 + b2 / 16) ::
      b64char (b2 % 16 * 4 + b3 / 64) :: b64char (b3 % 64) :: btoaBytes rest

/-- Decoding of a list of base64 digit values into bytes, 4 values to 3
bytes, with the final short group (2 or 3 values) yielding 1 or 2 bytes.
A leftover single value is rejected before this function is reached. -/
def decode4 : List Nat → List Nat
  | v1 :: v2 :: v3 :: v4 :: rest =>
    (v1 * 4 + v2 / 16) :: (v2 % 16 * 16 + v3 / 4) :: (v3 % 4 * 64 + v4) :: decode4 rest
  | [v1, v2] => [v1 * 4 + v2 / 16]
  | [v1, v2, v3] => [v1 * 4 + v2 / 16, v2 % 16 * 16 + v3 / 4]
  | _ => []

/-- Remove every trailing `=` of a character list. -/
def dropTrailingEq (l : List Char) : List Char :=
  (l.reverse.dropWhile (· == '=')).reverse

/-- Body of the runtime's `atob` on a character list: tolerate (and drop)
any amount of trailing `=` padding, reject characters outside the base64
alphabet and a leftover group of one digit, and decode the rest. -/
def atobBytes (l : List Char) : Option (List Nat) :=
  let core := dropTrailingEq l
  if core.all (fun c => (b64val c).isSome) then
    if core.length % 4 == 1 then none
    else some (decode4 (core.map (fun c => (b64val c).getD 0)))
  else none

/-- JavaScript `btoa`, on its domain: the source `btoa` throws an
`InvalidCharacterError` for char codes above 255 (in the worker this aborts
the whole rewrite to the 500 error path), so this total model is faithful
only on 8-bit inputs, and every theorem exercising it restricts its inputs
accordingly. -/
def btoa (s : String) : String := ⟨btoaBytes (s.data.map Char.toNat)⟩

/-- JavaScript `atob` (forgiving form, see the header comment): `none`
models the thrown `InvalidCharacterError`. -/
def atob (t : String) : Option String :=
  (atobBytes t.data).map (fun bs => ⟨bs.map Char.ofNat⟩)

/-- Addressing-codec encoder on character lists:
`btoa(s).replace(/=/g, '')` (worker.js lines 189, 190, 199, 200). -/
def encodeL (s : List Char) : List Char :=
  (btoaBytes (s.map Char.toNat)).filter (fun c => c != '=')

/-- Addressing-codec encoder: base64 with all `=` removed. -/
def encode (s : String) : String := ⟨encodeL s.data⟩

/-- Addressing-codec decoder: `atob(token + "==")`
(worker.js lines 248, 249). -/
def decode (t : String) : Option String :=
  (atobBytes (t.data ++ ['=', '='])).map (fun bs => ⟨bs.map Char.ofNat⟩)

/-- Whitespace as matched by the `\s` class of ECMAScript regexes: tab,
LF, VT, FF, CR, space, NBSP, Ogham space mark, the U+2000 to U+200A range,
LS, PS, NNBSP, MMSP, ideographic space and the BOM. -/
def jsWhitespace (c : Char) : Bool :=
  c == ' ' || c == '\t' || c == '\n' || c == '\r' ||
    c == '\x0b' || c == '\x0c' || c == '\u00A0' || c == '\u1680' ||
    (0x2000 ≤ c.toNat && c.toNat ≤ 0x200A) ||
    c == '\u2028' || c == '\u2029' || c == '\u202F' || c == '\u205F' ||
    c == '\u3000' || c == '\uFEFF'

/-- ECMAScript LineTerminator characters: LF, CR, LS, PS.  The multiline
`^` of the rewrite regexes anchors at the string start and right after
every one of these, not only after LF.  Every LineTerminator is also `\s`
whitespace, so no match of the rewrite regexes can span one. -/
def jsLineTerm (c : Char) : Bool :=
  c == '\n' || c == '\r' || c == '\u2028' || c == '\u2029'

/-- Longest non-whitespace run at the start of a line: what `[^\s]`
repetition can consume from the line start. -/
def nonSpaceRun (l : List Char) : List Char := l.takeWhile (fun c => !jsWhitespace c)

/-- First alternative `https?:\/\/[^\s]+` of the rewrite regexes, tested
against the non-space run `p` at line start: true when the whole of `p`
is the (greedy) match. -/
def absUrlMatch (p : List Char) : Bool :=
  ("https://".data.isPrefixOf p && decide (9 ≤ p.length)) ||
    ("http://".data.isPrefixOf p && decide (8 ≤ p.length))

/-- Largest `k ≤ fuel` such that the first `k` characters of `p` end with
`ext` and `k` is at least `ext.length + 1`: the greedy backtracking of
`[^/\s][^\s]*\.m3u8` (resp. `\.ts`) inside the non-space run. -/
def bestLen (ext p : List Char) : Nat → Option Nat
  | 0 => none
  | k + 1 =>
    if ext.isSuffixOf (p.take (k + 1)) && decide (ext.length + 1 ≤ k + 1) then some (k + 1)
    else bestLen ext p k

/-- Match of `^(?!#)(https?:\/\/[^\s]+|[^/\s][^\s]*EXT)` at one `^` anchor
position, the start of a LineTerminator-delimited segment (worker.js lines
185 and 196, `EXT` being `\.m3u8` or `\.ts`): returns the matched text and
the untouched remainder of the segment, or `none` when the segment starts
with `#` (the lookahead) or does not match. -/
def lineMatch (ext line : List Char) : Option (List Char × List Char) :=
  match line with
  | '#' :: _ => none
  | _ =>
    let p := nonSpaceRun line
    if absUrlMatch p then some (p, line.drop p.length)
    else
      match p with
      | [] => none
      | c :: _ =>
        if c = '/' then none
        else
          match bestLen ext p p.length with
          | some k => some (p.take k, line.drop k)
          | none => none

/-- Quality-token body `(\d+p?|low|med|high)\/` tried right after a `/`
(worker.js line 187): maximal digit run with optional `p`, or one of the
fixed vocabulary, each of which must be followed by a further `/`. -/
def qualAt (l : List Char) : Option (List Char) :=
  let ds := l.takeWhile Char.isDigit
  if ds.isEmpty then
    if "low/".data.isPrefixOf l then some "low".data
    else if "med/".data.isPrefixOf l then some "med".data
    else if "high/".data.isPrefixOf l then some "high".data
    else none
  else
    match l.drop ds.length with
    | '/' :: _ => some ds
    | 'p' :: '/' :: _ => some (ds ++ ['p'])
    | _ => none

/-- Leftmost match of `\/(\d+p?|low|med|high)\//` in the matched text:
scan for a `/` whose continuation matches the quality body. -/
def scanQual : List Char → Option (List Char)
  | [] => none
  | '/' :: rest =>
    match qualAt rest with
    | some q => some q
    | none => scanQual rest
  | _ :: rest => scanQual rest

/-- Quality detected from a matched master-playlist line, with the literal
`unknown` as the default (worker.js lines 187, 188). -/
def detectQuality (m : List Char) : List Char := (scanQual m).getD "unknown".data

/-- Split of a text at every occurrence of one character (used with `/`
for path components, and with LF to speak about newline-lines). -/
def splitOnChar (c : Char) : List Char → List (List Char)
  | [] => [[]]
  | x :: xs =>
    match splitOnChar c xs with
    | [] => [[]]
    | h :: t => if x = c then [] :: h :: t else (x :: h) :: t

/-- Segments of a text delimited by the characters satisfying `p`: with
`p` the LineTerminator test, the `^`-anchor positions of a multiline
ECMAScript regex are exactly the segment starts. -/
def splitSegsP (p : Char → Bool) : List Char → List (List Char)
  | [] => [[]]
  | x :: xs =>
    match splitSegsP p xs with
    | [] => [[]]
    | h :: t => if p x then [] :: h :: t else (x :: h) :: t

/-- Rejoin of segments with the recorded delimiter characters (there is
always exactly one more segment than delimiter). -/
def joinSegs : List (List Char) → List Char → List Char
  | [], _ => []
  | [s], _ => s
  | s :: _, [] => s
  | s :: rest, c :: cs => s ++ c :: joinSegs rest cs

/-- Last path component of a matched segment line:
`match.split('/').pop()` (worker.js line 198). -/
def lastComponent (m : List Char) : List Char := (splitOnChar '/' m).getLastD []

/-- Replacement emitted for a matched master-playlist variant line
(worker.js lines 186 to 192), followed by the remainder `rest` of the line
that the regex did not match. -/
def masterRepl (origin session m rest : List Char) : List Char :=
  origin ++ "/file2/".data ++ session ++ ('/' :: encodeL (detectQuality m)) ++
    ('/' :: encodeL "index.m3u8".data) ++ (".m3u8".data ++ rest)

/-- Replacement emitted for a matched media-playlist segment line
(worker.js lines 197 to 202), followed by the remainder `rest` of the line
that the regex did not match. -/
def mediaRepl (origin session quality m rest : List Char) : List Char :=
  origin ++ "/file2/".data ++ session ++ ('/' :: encodeL quality) ++
    ('/' :: (encodeL (lastComponent m) ++ rest))

/-- Rewriting of one LineTerminator-delimited segment of the playlist: the
requested filename `master.m3u8` selects the master branch (variant
rewriting), any other filename the media branch (media-segment rewriting);
unmatched segments pass through unchanged (worker.js lines 183 to 204). -/
def rewriteLine (origin session quality filename : List Char) (line : List Char) : List Char :=
  if filename = "master.m3u8".data then
    match lineMatch ".m3u8".data line with
    | some (m, rest) => masterRepl origin session m rest
    | none => line
  else
    match lineMatch ".ts".data line with
    | some (m, rest) => mediaRepl origin session quality m rest
    | none => line

/-- Whole-playlist rewriting on character lists.  The source applies one
`String.replace` with a `gm` regex: its multiline `^` anchors at the string
start and after every LineTerminator (LF, CR, LS, PS), its character
classes exclude all `\s` whitespace, LineTerminators included, so a match
never spans a delimiter, and after a match inside a segment no further
anchor exists before the next delimiter.  The replacement is therefore
exactly one `rewriteLine` substitution per LineTerminator-delimited
segment, the delimiters themselves passing through unchanged. -/
def rewritePlaylistL (origin session quality filename body : List Char) : List Char :=
  joinSegs ((splitSegsP jsLineTerm body).map (rewriteLine origin session quality filename))
    (body.filter jsLineTerm)

/-- Manifest Rewriter on strings (the rewriting step of
`proxyM3U8Playlist`, worker.js lines 180 to 204). -/
def rewritePlaylist (origin session quality filename body : String) : String :=
  ⟨rewritePlaylistL origin.data session.data quality.data filename.data body.data⟩

/-- Text of `u` up to (excluding) its last `/`, empty when `u` has no `/`:
`u.substring(0, u.lastIndexOf('/'))` as used in worker.js lines 105, 161. -/
def jsDirname (u : List Char) : List Char :=
  match u.reverse.dropWhile (fun c => c ≠ '/') with
  | [] => []
  | _ :: restRev => restRev.reverse

/-- Upstream URL targeted by `proxyM3U8Playlist` for a requested manifest
filename (worker.js lines 153 to 163). -/
def computeTargetUrl (originalUrl filename quality : String) : String :=
  if filename = "master.m3u8" then originalUrl
  else if filename = "index.m3u8" ∨ filename = "playlist.m3u8" then
    (⟨jsDirname originalUrl.data⟩ : String) ++ "/" ++ quality ++ "/index.m3u8"
  else originalUrl

/-- Upstream URL targeted by `proxyVideoSegment` (worker.js lines 105, 106). -/
def segmentUrlOf (originalUrl filename : String) : String :=
  (⟨jsDirname originalUrl.data⟩ : String) ++ "/" ++ filename

/-- Session record stored in the session map (worker.js lines 11 to 18). -/
structure SessionRec where
  originalUrl : String
  metadata : List (String × String)
  timestamp : Nat
  expiresAt : Nat
deriving DecidableEq

/-- In-memory session store: the worker's module-level `Map`, embedded as
an association list with unique keys. -/
abbrev SessionStore := List (String × SessionRec)

/-- Session lifetime: 24 hours in milliseconds (worker.js line 16). -/
def sessionLifetimeMs : Nat := 24 * 60 * 60 * 1000

/-- Removal of a key from the store (`Map.delete`). -/
def eraseKey (sid : String) (st : SessionStore) : SessionStore :=
  st.filter (fun p => p.1 ≠ sid)

/-- The `storeSession` helper (worker.js lines 11 to 18): `Map.set`
semantics, with `expiresAt` 24 hours after `now`. -/
def storeSession (sessionId originalUrl : String) (metadata : List (String × String))
    (now : Nat) (st : SessionStore) : SessionStore :=
  (sessionId, ⟨originalUrl, metadata, now, now + sessionLifetimeMs⟩) :: eraseKey sessionId st

/-- The `getSession` helper (worker.js lines 20 to 31): `none` for a
missing entry; an entry with nonzero `expiresAt` strictly in the past is
deleted (lazy expiry) and reported missing; otherwise the entry is
returned and the store left unchanged. -/
def getSession (now : Nat) (st : SessionStore) (sessionId : String) :
    Option SessionRec × SessionStore :=
  match st.lookup sessionId with
  | none => (none, st)
  | some s =>
    if s.expiresAt ≠ 0 ∧ now > s.expiresAt then (none, eraseKey sessionId st)
    else (some s, st)

/-- JavaScript `url.pathname.split('/')`. -/
def jsSplitSlash (s : String) : List String :=
  (splitOnChar '/' s.data).map (fun l => (⟨l⟩ : String))

/-- Replacement of the first occurrence of `pat` (and only it) by the empty
string: JavaScript `str.replace('.m3u8', '')` with a string pattern. -/
def replaceFirstL (pat : List Char) : List Char → List Char
  | [] => []
  | x :: xs =>
    if pat.isPrefixOf (x :: xs) then (x :: xs).drop pat.length
    else x :: replaceFirstL pat xs

/-- Strip of the first `.m3u8` occurrence from the filename token before
decoding (worker.js line 249). -/
def stripM3u8Once (t : String) : String := ⟨replaceFirstL ".m3u8".data t.data⟩

/-- Substring test (JavaScript `String.prototype.includes`). -/
def containsL (pat l : List Char) : Bool :=
  l.tails.any (fun t => pat.isPrefixOf t)

/-- Segment-vs-manifest classification of the decoded filename
(worker.js lines 270 to 273). -/
def isSegmentFilename (filename : String) : Bool :=
  ".ts".data.isSuffixOf filename.data ||
    (!containsL ".m3u8".data filename.data && !containsL "master".data filename.data &&
      !containsL "index".data filename.data)

/-- Outcome of the datacrate proxy handler, up to the outbound fetch:
error responses are final; the fetch constructors record the upstream
request the handler goes on to issue. -/
inductive ProxyResult where
  | invalidFormat : ProxyResult
  | decodeError : ProxyResult
  | sessionNotFound (shownId : String) : ProxyResult
  | fetchSegment (segmentUrl filename : String) : ProxyResult
  | fetchPlaylist (targetUrl filename quality : String) : ProxyResult
deriving DecidableEq

/-- HTTP status of a `ProxyResult` (for the fetch constructors, the status
on upstream success; upstream failures are out of scope here). -/
def proxyStatus : ProxyResult → Nat
  | .invalidFormat => 400
  | .decodeError => 400
  | .sessionNotFound _ => 404
  | .fetchSegment _ _ => 200
  | .fetchPlaylist _ _ _ => 200

/-- Whether a `ProxyResult` performs an upstream fetch. -/
def isUpstreamFetch : ProxyResult → Bool
  | .fetchSegment _ _ => true
  | .fetchPlaylist _ _ _ => true
  | _ => false

/-- The datacrate proxy handler `handleDatacrateProxy`
(worker.js lines 235 to 294), modelled up to the outbound fetch.  Both
tokens are decoded before the session lookup, exactly as in the source
(lines 248, 249 precede line 252); an `atob` failure is caught and mapped
to the 400 `Failed to decode URL` response. -/
def handleDatacrateProxy (now : Nat) (st : SessionStore) (pathname : String) :
    ProxyResult × SessionStore :=
  let parts := jsSplitSlash pathname
  if parts.length < 5 then (.invalidFormat, st)
  else
    let sessionPath := parts.getD 2 ""
    let qualityB64 := parts.getD 3 ""
    let filenameB64 := parts.getD 4 ""
    match decode qualityB64 with
    | none => (.decodeError, st)
    | some quality =>
      match decode (stripM3u8Once filenameB64) with
      | none => (.decodeError, st)
      | some filename =>
        match getSession now st sessionPath with
        | (none, st2) =>
          (.sessionNotFound ((⟨sessionPath.data.take 20⟩ : String) ++ "..."), st2)
        | (some sess, st2) =>
          if isSegmentFilename filename then
            (.fetchSegment (segmentUrlOf sess.originalUrl filename) filename, st2)
          else
            (.fetchPlaylist (computeTargetUrl sess.originalUrl filename quality)
              filename quality, st2)

/-- Parsed JSON body of a store-session request; absent fields are `none`. -/
structure StoreBody where
  sessionId : Option String
  originalUrl : Option String
  metadata : List (String × String)
deriving DecidableEq

/-- Outcome of the store-session handler. -/
inductive StoreResult where
  | methodNotAllowed : StoreResult
  | invalidJson : StoreResult
  | missingFields (msg : String) : StoreResult
  | success (sessionId : String) : StoreResult
deriving DecidableEq

/-- HTTP status of a `StoreResult`. -/
def storeStatus : StoreResult → Nat
  | .methodNotAllowed => 405
  | .invalidJson => 400
  | .missingFields _ => 400
  | .success _ => 200

/-- JavaScript falsiness of an optional string field: missing or empty. -/
def jsFalsyStr (o : Option String) : Bool :=
  match o with
  | none => true
  | some s => s == ""

/-- The `handleStoreSession` handler (worker.js lines 51 to 99).  `none`
for the body models a JSON parse failure.  When neither field is falsy both
are present and nonempty, so `getD` returns their actual values. -/
def handleStoreSession (method : String) (bodyJson : Option StoreBody) (now : Nat)
    (st : SessionStore) : StoreResult × SessionStore :=
  if method ≠ "POST" then (.methodNotAllowed, st)
  else
    match bodyJson with
    | none => (.invalidJson, st)
    | some b =>
      if jsFalsyStr b.sessionId || jsFalsyStr b.originalUrl then
        (.missingFields "sessionId and originalUrl are required", st)
      else
        (.success (b.sessionId.getD ""),
          storeSession (b.sessionId.getD "") (b.originalUrl.getD "") b.metadata now st)

/-- Outcome of the legacy handler. -/
inductive LegacyResult where
  | invalidFormat : LegacyResult
  | gone (err msg fmt ex : String) : LegacyResult
deriving DecidableEq

/-- HTTP status of a `LegacyResult` (worker.js lines 301 and 314). -/
def legacyStatus : LegacyResult → Nat
  | .invalidFormat => 400
  | .gone _ _ _ _ => 410

/-- The `handleLegacyProxy` handler (worker.js lines 297 to 319):
`split('/').filter(Boolean)` keeps the nonempty segments. -/
def handleLegacyProxy (pathname : String) : LegacyResult :=
  let parts := (jsSplitSlash pathname).filter (fun s => s ≠ "")
  if parts.length < 5 then .invalidFormat
  else
    .gone "Legacy format deprecated"
      "Please use the datacrate format: /file2/[session]/[quality]/[filename].m3u8"
      "file2/[sessionPath]/[qualityBase64]/[filenameBase64].m3u8"
      "/file2/abc123/cXVhbGl0eQ==/cGxheWxpc3QubTN1OA==.m3u8"

/-- Dispatch targets of the top-level fetch handler. -/
inductive Route where
  | storeSession : Route
  | datacrate : Route
  | legacy : Route
  | health : Route
  | fallback : Route
deriving DecidableEq

/-- Routing by path prefix (worker.js lines 355 to 366), in source order. -/
def route (pathname : String) : Route :=
  if "/store-session".data.isPrefixOf pathname.data then .storeSession
  else if "/file2/".data.isPrefixOf pathname.data then .datacrate
  else if "/stream/".data.isPrefixOf pathname.data then .legacy
  else if pathname = "/health" then .health
  else .fallback

/-! Helper lemmas about `splitSegsP` and `joinSegs`. -/

theorem splitSegsP_ne_nil (p : Char → Bool) (l : List Char) : splitSegsP p l ≠ [] := by
  induction l with
  | nil => simp [splitSegsP]
  | cons x xs ih =>
    cases hs : splitSegsP p xs with
    | nil => exact absurd hs ih
    | cons h t =>
      simp only [splitSegsP, hs]
      split <;> simp

theorem not_p_of_mem_splitSegsP (p : Char → Bool) (l : List Char) :
    ∀ s ∈ splitSegsP p l, ∀ c ∈ s, p c = false := by
  induction l with
  | nil =>
    intro s hs
    simp [splitSegsP] at hs
    simp [hs]
  | cons x xs ih =>
    intro s hs
    cases hsp : splitSegsP p xs with
    | nil => exact absurd hsp (splitSegsP_ne_nil p xs)
    | cons h t =>
      simp only [splitSegsP, hsp] at hs
      cases hx : p x with
      | true =>
        rw [if_pos hx] at hs
        rcases List.mem_cons.mp hs with rfl | hs
        · simp
        · exact ih s (hsp ▸ hs)
      | false =>
        rw [if_neg (by simp [hx])] at hs
        rcases List.mem_cons.mp hs with rfl | hs
        · intro c hc
          rcases List.mem_cons.mp hc with rfl | hc
          · exact hx
          · exact ih h (hsp ▸ List.mem_cons_self h t) c hc
        · exact ih s (hsp ▸ List.mem_cons_of_mem h hs)

theorem splitSegsP_of_all_neg {p : Char → Bool} {l : List Char}
    (h : ∀ c ∈ l, p c = false) : splitSegsP p l = [l] := by
  induction l with
  | nil => rfl
  | cons x xs ih =>
    have hx : p x = false := h x (List.mem_cons_self x xs)
    have hxs : ∀ c ∈ xs, p c = false := fun c hc => h c (List.mem_cons_of_mem x hc)
    simp only [splitSegsP, ih hxs]
    rw [if_neg (by simp [hx])]

theorem splitSegsP_append_cons {p : Char → Bool} {s : List Char} (t : List Char)
    (hs : ∀ c ∈ s, p c = false) {c : Char} (hc : p c = true) :
    splitSegsP p (s ++ c :: t) = s :: splitSegsP p t := by
  induction s with
  | nil =>
    cases hsp : splitSegsP p t with
    | nil => exact absurd hsp (splitSegsP_ne_nil p t)
    | cons h2 t2 => simp [splitSegsP, hsp, hc]
  | cons x xs ih =>
    have hx : p x = false := hs x (List.mem_cons_self x xs)
    have hxs : ∀ d ∈ xs, p d = false := fun d hd => hs d (List.mem_cons_of_mem x hd)
    have key : splitSegsP p ((x :: xs) ++ c :: t) =
        match splitSegsP p (xs ++ c :: t) with
        | [] => [[]]
        | h2 :: t2 => if p x then [] :: h2 :: t2 else (x :: h2) :: t2 := rfl
    rw [key, ih hxs]
    show (if p x then [] :: xs :: splitSegsP p t else (x :: xs) :: splitSegsP p t) =
      (x :: xs) :: splitSegsP p t
    rw [if_neg (by simp [hx])]

theorem length_splitSegsP (p : Char → Bool) (l : List Char) :
    (splitSegsP p l).length = (l.filter p).length + 1 := by
  induction l with
  | nil => rfl
  | cons x xs ih =>
    cases hsp : splitSegsP p xs with
    | nil => exact absurd hsp (splitSegsP_ne_nil p xs)
    | cons h t =>
      rw [hsp] at ih
      simp only [splitSegsP, hsp, List.filter_cons]
      by_cases hx : p x = true
      · rw [if_pos hx, if_pos hx]
        simp only [List.length_cons] at ih ⊢
        omega
      · rw [if_neg hx, if_neg hx]
        simp only [List.length_cons] at ih ⊢
        omega

theorem filter_eq_nil_of_all_neg {p : Char → Bool} {l : List Char}
    (h : ∀ c ∈ l, p c = false) : l.filter p = [] := by
  induction l with
  | nil => rfl
  | cons x xs ih =>
    rw [List.filter_cons, if_neg (by simp [h x (List.mem_cons_self x xs)])]
    exact ih (fun c hc => h c (List.mem_cons_of_mem x hc))

theorem joinSegs_roundtrip (p : Char → Bool) :
    ∀ (segs : List (List Char)) (seps : List Char),
      segs.length = seps.length + 1 →
      (∀ s ∈ segs, ∀ c ∈ s, p c = false) →
      (∀ c ∈ seps, p c = true) →
      splitSegsP p (joinSegs segs seps) = segs
      ∧ (joinSegs segs seps).filter p = seps := by
  intro segs
  induction segs with
  | nil =>
    intro seps hlen
    simp at hlen
  | cons s segs ih =>
    intro seps hlen hsegs hseps
    cases segs with
    | nil =>
      have hnil : seps = [] := by
        cases seps with
        | nil => rfl
        | cons c cs => simp at hlen
      subst hnil
      have hall : ∀ c ∈ s, p c = false := hsegs s (List.mem_cons_self s [])
      exact ⟨splitSegsP_of_all_neg hall, filter_eq_nil_of_all_neg hall⟩
    | cons s2 rest =>
      cases seps with
      | nil => simp at hlen
      | cons c cs =>
        have hlen2 : (s2 :: rest).length = cs.length + 1 := by simpa using hlen
        have hall : ∀ x ∈ s, p x = false := hsegs s (List.mem_cons_self s _)
        have hc : p c = true := hseps c (List.mem_cons_self c cs)
        obtain ⟨ih1, ih2⟩ := ih cs hlen2
          (fun u hu => hsegs u (List.mem_cons_of_mem s hu))
          (fun d hd => hseps d (List.mem_cons_of_mem c hd))
        have hj : joinSegs (s :: s2 :: rest) (c :: cs)
            = s ++ c :: joinSegs (s2 :: rest) cs := rfl
        rw [hj]
        constructor
        · rw [splitSegsP_append_cons _ hall hc, ih1]
        · rw [List.filter_append, filter_eq_nil_of_all_neg hall,
            List.filter_cons, if_pos hc, ih2]
          rfl


/-! Helper lemmas about the characters produced by the encoder. -/

theorem b64char_cases (n : Nat) : b64char n ∈ base64Chars ∨ b64char n = '?' := by
  by_cases h : n < base64Chars.length
  · left
    rw [b64char, List.getD_eq_getElem _ _ h]
    exact List.getElem_mem h
  · right
    rw [b64char, List.getD_eq_default _ _ (Nat.le_of_not_lt h)]

theorem mem_btoaBytes (bl : List Nat) :
    ∀ c ∈ btoaBytes bl, c ∈ base64Chars ∨ c = '?' ∨ c = '=' := by
  induction bl using btoaBytes.induct with
  | case1 => intro c hc; simp [btoaBytes] at hc
  | case2 b1 =>
    intro c hc
    simp only [btoaBytes, List.mem_cons] at hc
    rcases hc with rfl | rfl | rfl | rfl | h
    · rcases b64char_cases (b1 / 4) with h | h
      · exact Or.inl h
      · exact Or.inr (Or.inl h)
    · rcases b64char_cases (b1 % 4 * 16) with h | h
      · exact Or.inl h
      · exact Or.inr (Or.inl h)
    · exact Or.inr (Or.inr rfl)
    · exact Or.inr (Or.inr rfl)
    · simp at h
  | case3 b1 b2 =>
    intro c hc
    simp only [btoaBytes, List.mem_cons] at hc
    rcases hc with rfl | rfl | rfl | rfl | h
    · rcases b64char_cases (b1 / 4) with h | h
      · exact Or.inl h
      · exact Or.inr (Or.inl h)
    · rcases b64char_cases (b1 % 4 * 16 + b2 / 16) with h | h
      · exact Or.inl h
      · exact Or.inr (Or.inl h)
    · rcases b64char_cases (b2 % 16 * 4) with h | h
      · exact Or.inl h
      · exact Or.inr (Or.inl h)
    · exact Or.inr (Or.inr rfl)
    · simp at h
  | case4 b1 b2 b3 rest ih =>
    intro c hc
    simp only [btoaBytes, List.mem_cons] at hc
    rcases hc with rfl | rfl | rfl | rfl | h
    · rcases b64char_cases (b1 / 4) with h | h
      · exact Or.inl h
      · exact Or.inr (Or.inl h)
    · rcases b64char_cases (b1 % 4 * 16 + b2 / 16) with h | h
      · exact Or.inl h
      · exact Or.inr (Or.inl h)
    · rcases b64char_cases (b2 % 16 * 4 + b3 / 64) with h | h
      · exact Or.inl h
      · exact Or.inr (Or.inl h)
    · rcases b64char_cases (b3 % 64) with h | h
      · exact Or.inl h
      · exact Or.inr (Or.inl h)
    · exact ih c h

theorem base64Chars_no_lineTerm : ∀ c ∈ base64Chars, jsLineTerm c = false := by decide

theorem lineTerm_not_mem_encodeL (s : List Char) :
    ∀ c ∈ encodeL s, jsLineTerm c = false := by
  intro c hc
  have h1 : c ∈ btoaBytes (s.map Char.toNat) := (List.mem_filter.mp hc).1
  rcases mem_btoaBytes _ _ h1 with h | h | h
  · exact base64Chars_no_lineTerm c h
  · rw [h]; decide
  · rw [h]; decide

theorem lineMatch_rest {ext line m rest : List Char}
    (h : lineMatch ext line = some (m, rest)) : ∃ k, rest = line.drop k := by
  unfold lineMatch at h
  split at h
  · exact absurd h (by simp)
  · by_cases ha : absUrlMatch (nonSpaceRun line)
    · rw [if_pos ha] at h
      simp only [Option.some.injEq, Prod.mk.injEq] at h
      exact ⟨(nonSpaceRun line).length, h.2.symm⟩
    · rw [if_neg ha] at h
      split at h
      · exact absurd h (by simp)
      · split at h
        · exact absurd h (by simp)
        · split at h
          · simp only [Option.some.injEq, Prod.mk.injEq] at h
            exact ⟨_, h.2.symm⟩
          · exact absurd h (by simp)

theorem lineTerm_not_mem_rewriteLine {origin session quality filename line : List Char}
    (ho : ∀ c ∈ origin, jsLineTerm c = false)
    (hs : ∀ c ∈ session, jsLineTerm c = false)
    (hl : ∀ c ∈ line, jsLineTerm c = false) :
    ∀ c ∈ rewriteLine origin session quality filename line, jsLineTerm c = false := by
  unfold rewriteLine
  split
  · cases hm : lineMatch ".m3u8".data line with
    | none => exact hl
    | some pr =>
      obtain ⟨m, rest⟩ := pr
      obtain ⟨k, rfl⟩ := lineMatch_rest hm
      intro c hc
      unfold masterRepl at hc
      rcases List.mem_append.mp hc with hc | hc
      · rcases List.mem_append.mp hc with hc | hc
        · rcases List.mem_append.mp hc with hc | hc
          · rcases List.mem_append.mp hc with hc | hc
            · rcases List.mem_append.mp hc with hc | hc
              · exact ho c hc
              · exact (by decide : ∀ x ∈ ("/file2/" : String).data,
                  jsLineTerm x = false) c hc
            · exact hs c hc
          · rcases List.mem_cons.mp hc with rfl | hc
            · decide
            · exact lineTerm_not_mem_encodeL _ c hc
        · rcases List.mem_cons.mp hc with rfl | hc
          · decide
          · exact lineTerm_not_mem_encodeL _ c hc
      · rcases List.mem_append.mp hc with hc | hc
        · exact (by decide : ∀ x ∈ (".m3u8" : String).data,
            jsLineTerm x = false) c hc
        · exact hl c (List.mem_of_mem_drop hc)
  · cases hm : lineMatch ".ts".data line with
    | none => exact hl
    | some pr =>
      obtain ⟨m, rest⟩ := pr
      obtain ⟨k, rfl⟩ := lineMatch_rest hm
      intro c hc
      unfold mediaRepl at hc
      rcases List.mem_append.mp hc with hc | hc
      · rcases List.mem_append.mp hc with hc | hc
        · rcases List.mem_append.mp hc with hc | hc
          · rcases List.mem_append.mp hc with hc | hc
            · exact ho c hc
            · exact (by decide : ∀ x ∈ ("/file2/" : String).data,
                jsLineTerm x = false) c hc
          · exact hs c hc
        · rcases List.mem_cons.mp hc with rfl | hc
          · decide
          · exact lineTerm_not_mem_encodeL _ c hc
      · rcases List.mem_cons.mp hc with rfl | hc
        · decide
        · rcases List.mem_append.mp hc with hc | hc
          · exact lineTerm_not_mem_encodeL _ c hc
          · exact hl c (List.mem_of_mem_drop hc)

/-- C5 counterexample: the body `#a` CR `x.m3u8` is a single newline-line
that starts with `#`, yet rewriting changes it: the multiline `^` anchors
right after the CR and the regex substitutes `x.m3u8` inside the
`#`-initial line, so directive lines are not byte-for-byte unchanged. -/
theorem claimC5_counterexample :
    ("#a\rx.m3u8" : String).data.head? = some '#'
      ∧ splitOnChar '\n' ("#a\rx.m3u8" : String).data = [("#a\rx.m3u8" : String).data]
      ∧ rewritePlaylist "o" "S" "q" "master.m3u8" "#a\rx.m3u8" ≠ "#a\rx.m3u8" := by
  exact ⟨by decide, by decide, by decide⟩

/-- C5 amended: the frame effect holds at the level of the LineTerminator
(LF, CR, LS, PS) delimited segments at which the multiline `^` anchors:
rewriting maps each segment in place (segment count and order preserved),
the delimiter sequence itself is unchanged, and every segment starting
with `#` and every empty segment passes through byte-for-byte.  Stated for
8-bit bodies and quality strings (on larger char codes the worker's `btoa`
throws and the request fails with 500 before any body is produced) and for
terminator-free proxy origin and session id (true of every URL origin and
path segment).  The per-newline-line reading of the claim holds only for
bodies whose newline-lines contain no CR, LS or PS; otherwise it fails,
see the counterexample. -/
theorem claimC5_frame (origin session quality filename body : String)
    (ho : ∀ c ∈ origin.data, jsLineTerm c = false)
    (hs : ∀ c ∈ session.data, jsLineTerm c = false)
    (hbody : ∀ c ∈ body.data, c.toNat < 256)
    (hqual : ∀ c ∈ quality.data, c.toNat < 256) :
    splitSegsP jsLineTerm (rewritePlaylist origin session quality filename body).data
      = (splitSegsP jsLineTerm body.data).map
          (rewriteLine origin.data session.data quality.data filename.data)
    ∧ (rewritePlaylist origin session quality filename body).data.filter jsLineTerm
        = body.data.filter jsLineTerm
    ∧ (∀ l : List Char, l.head? = some '#' ∨ l = [] →
        rewriteLine origin.data session.data quality.data filename.data l = l) := by
  have h1 : (rewritePlaylist origin session quality filename body).data
      = joinSegs ((splitSegsP jsLineTerm body.data).map
          (rewriteLine origin.data session.data quality.data filename.data))
        (body.data.filter jsLineTerm) := rfl
  have hround := joinSegs_roundtrip jsLineTerm
    ((splitSegsP jsLineTerm body.data).map
      (rewriteLine origin.data session.data quality.data filename.data))
    (body.data.filter jsLineTerm)
    (by rw [List.length_map, length_splitSegsP])
    (by
      intro s hsm
      obtain ⟨l0, hl0, rfl⟩ := List.mem_map.mp hsm
      exact lineTerm_not_mem_rewriteLine ho hs (not_p_of_mem_splitSegsP _ _ l0 hl0))
    (fun d hd => (List.mem_filter.mp hd).2)
  refine ⟨by rw [h1]; exact hround.1, by rw [h1]; exact hround.2, ?_⟩
  intro l hl
  rcases hl with hl | rfl
  · cases l with
    | nil => simp at hl
    | cons x xs =>
      simp only [List.head?_cons, Option.some.injEq] at hl
      subst hl
      unfold rewriteLine
      split <;> rfl
  · unfold rewriteLine
    split <;> rfl

theorem claimC5_frame_witness :
    splitSegsP jsLineTerm (rewritePlaylist "o" "S" "q" "master.m3u8" "#A\nx.m3u8").data
      = (splitSegsP jsLineTerm ("#A\nx.m3u8" : String).data).map
          (rewriteLine "o".data "S".data "q".data "master.m3u8".data)
    ∧ (rewritePlaylist "o" "S" "q" "master.m3u8" "#A\nx.m3u8").data.filter jsLineTerm
        = ("#A\nx.m3u8" : String).data.filter jsLineTerm
    ∧ (∀ l : List Char, l.head? = some '#' ∨ l = [] →
        rewriteLine "o".data "S".data "q".data "master.m3u8".data l = l) :=
  claimC5_frame "o" "S" "q" "master.m3u8" "#A\nx.m3u8"
    (by decide) (by decide) (by decide) (by decide)

/-- C2 counterexample: on the master manifest of the claim, the rewritten
output does not carry the claimed tokens `enc("1080p")` (`MTA4MHA`) and
`enc("720p")` (`NzIwcA`); the last two conjuncts verify that those are
indeed the encodings the claim prescribes. -/
theorem claimC2_counterexample :
    rewritePlaylist "o" "S" "q" "master.m3u8" "#EXTM3U\n1080p/index.m3u8\n720p/index.m3u8"
        ≠ "#EXTM3U\no/file2/S/MTA4MHA/aW5kZXgubTN1OA.m3u8\no/file2/S/NzIwcA/aW5kZXgubTN1OA.m3u8"
      ∧ encode "1080p" = "MTA4MHA" ∧ encode "720p" = "NzIwcA" := by decide

/-- C2 amended: rewriting the master manifest `#EXTM3U`, `1080p/index.m3u8`,
`720p/index.m3u8` with any proxy origin and session id keeps the comment
line unchanged and replaces both reference lines in order, but the quality
token of both is `enc("unknown")` = `dW5rbm93bg`: the quality regex
`\/(\d+p?|low|med|high)\//` requires a slash before the quality segment,
which these relative lines do not have, so the default applies. -/
theorem claimC2_master (origin session quality : List Char) :
    rewritePlaylistL origin session quality "master.m3u8".data
        "#EXTM3U\n1080p/index.m3u8\n720p/index.m3u8".data
      = "#EXTM3U\n".data ++
          ((origin ++ "/file2/".data ++ session ++ "/dW5rbm93bg".data ++
              "/aW5kZXgubTN1OA".data ++ ".m3u8".data) ++
            ('\n' :: (origin ++ "/file2/".data ++ session ++ "/dW5rbm93bg".data ++
              "/aW5kZXgubTN1OA".data ++ ".m3u8".data))) := rfl

/-- C4: rewriting the media manifest `#EXTM3U`, `seg001.ts`,
`sub/dir/seg001.ts` with quality `720p` replaces both segment lines by
`{origin}/file2/{S}/{enc("720p")}/{enc("seg001.ts")}` with no `.m3u8`
suffix (`enc("720p")` = `NzIwcA`, `enc("seg001.ts")` = `c2VnMDAxLnRz`;
the directory prefix `sub/dir/` is stripped before encoding); and in
general every matched segment reference line is replaced by the proxy URL
whose filename token encodes only the last `/`-separated component of the
matched text, followed by the unmatched remainder of the line. -/
theorem claimC4_media (origin session : List Char) :
    (rewritePlaylistL origin session "720p".data "index.m3u8".data
        "#EXTM3U\nseg001.ts\nsub/dir/seg001.ts".data
      = "#EXTM3U\n".data ++
          ((origin ++ "/file2/".data ++ session ++ "/NzIwcA".data ++ "/c2VnMDAxLnRz".data) ++
            ('\n' :: (origin ++ "/file2/".data ++ session ++ "/NzIwcA".data ++
              "/c2VnMDAxLnRz".data))))
    ∧ (∀ quality line m rest, lineMatch ".ts".data line = some (m, rest) →
        rewriteLine origin session quality "index.m3u8".data line
          = origin ++ "/file2/".data ++ session ++ ('/' :: encodeL quality) ++
              ('/' :: (encodeL ((splitOnChar '/' m).getLastD []) ++ rest))) := by
  constructor
  · rfl
  · intro quality line m rest hm
    unfold rewriteLine
    rw [if_neg (by decide)]
    rw [hm]
    rfl

theorem claimC4_media_witness :
    rewriteLine "o".data "S".data "720p".data "index.m3u8".data "sub/dir/seg001.ts".data
      = "o".data ++ "/file2/".data ++ "S".data ++ ('/' :: encodeL "720p".data) ++
          ('/' :: (encodeL ((splitOnChar '/' "sub/dir/seg001.ts".data).getLastD []) ++ [])) :=
  (claimC4_media "o".data "S".data).2 "720p".data "sub/dir/seg001.ts".data
    "sub/dir/seg001.ts".data [] (by decide)

theorem prefixAppendSplit {h a b : List Char} (hp : h <+: a ++ b) :
    h <+: a ∨ ∃ h2, h = a ++ h2 ∧ h2 <+: b := by
  induction a generalizing h with
  | nil => exact Or.inr ⟨h, rfl, by simpa using hp⟩
  | cons x a ih =>
    cases h with
    | nil => exact Or.inl (List.nil_prefix)
    | cons y h2 =>
      rw [List.cons_append] at hp
      obtain ⟨rfl, hp2⟩ := List.cons_prefix_cons.mp hp
      rcases ih hp2 with h3 | ⟨h4, rfl, hb⟩
      · exact Or.inl (List.cons_prefix_cons.mpr ⟨rfl, h3⟩)
      · exact Or.inr ⟨h4, by simp, hb⟩

theorem infixAppendSplit {h a b : List Char} (hi : h <:+: a ++ b) :
    h <:+: a ∨ h <:+: b ∨
      ∃ h1 h2, h = h1 ++ h2 ∧ h1 ≠ [] ∧ h2 ≠ [] ∧ h1 <:+ a ∧ h2 <+: b := by
  induction a generalizing h with
  | nil => exact Or.inr (Or.inl (by simpa using hi))
  | cons x a ih =>
    rw [List.cons_append] at hi
    rcases List.infix_cons_iff.mp hi with hp | hi2
    · cases h with
      | nil => exact Or.inl (List.nil_infix)
      | cons y h2 =>
        obtain ⟨rfl, hp2⟩ := List.cons_prefix_cons.mp hp
        rcases prefixAppendSplit hp2 with h3 | ⟨h4, rfl, hb⟩
        · exact Or.inl (List.cons_prefix_cons.mpr ⟨rfl, h3⟩).isInfix
        · cases h4 with
          | nil => exact Or.inl (by simp)
          | cons z h5 =>
            refine Or.inr (Or.inr ⟨y :: a, z :: h5, by simp, by simp, by simp, ?_, hb⟩)
            exact List.suffix_rfl
    · rcases ih hi2 with h3 | h4 | ⟨h5, h6, he, hn1, hn2, hsuf, hpre⟩
      · exact Or.inl (h3.trans (List.infix_cons List.infix_rfl))
      · exact Or.inr (Or.inl h4)
      · exact Or.inr (Or.inr ⟨h5, h6, he, hn1, hn2, hsuf.trans (List.suffix_cons x a), hpre⟩)

theorem notInfixJoinSegs {p : Char → Bool} {h : List Char} (hne : h ≠ [])
    (hh : ∀ c ∈ h, p c = false) :
    ∀ (segs : List (List Char)) (seps : List Char),
      (∀ c ∈ seps, p c = true) → (∀ s ∈ segs, ¬ h <:+: s) →
      ¬ h <:+: joinSegs segs seps := by
  intro segs
  induction segs with
  | nil =>
    intro seps _ _ hi
    rw [show joinSegs [] seps = [] from rfl] at hi
    exact hne (List.eq_nil_of_infix_nil hi)
  | cons s segs ih =>
    intro seps hseps hsegs hi
    cases segs with
    | nil =>
      cases seps with
      | nil => exact hsegs s (List.mem_cons_self s []) hi
      | cons c cs => exact hsegs s (List.mem_cons_self s []) hi
    | cons s2 rest =>
      cases seps with
      | nil => exact hsegs s (List.mem_cons_self s _) hi
      | cons c cs =>
        have h1 : joinSegs (s :: s2 :: rest) (c :: cs)
            = s ++ c :: joinSegs (s2 :: rest) cs := rfl
        rw [h1] at hi
        rcases infixAppendSplit hi with h2 | h2 | ⟨h3, h4, he, _, hn2, _, hpre⟩
        · exact hsegs s (List.mem_cons_self s _) h2
        · rcases List.infix_cons_iff.mp h2 with hp | h3
          · cases h with
            | nil => exact hne rfl
            | cons y h5 =>
              obtain ⟨hyc, _⟩ := List.cons_prefix_cons.mp hp
              have h6 : p y = false := hh y (List.mem_cons_self y h5)
              have h7 : p c = true := hseps c (List.mem_cons_self c cs)
              rw [hyc] at h6
              rw [h6] at h7
              exact Bool.false_ne_true h7
          · exact ih cs (fun d hd => hseps d (List.mem_cons_of_mem c hd))
              (fun u hu => hsegs u (List.mem_cons_of_mem s hu)) h3
        · cases h4 with
          | nil => exact hn2 rfl
          | cons z h5 =>
            obtain ⟨hzc, _⟩ := List.cons_prefix_cons.mp hpre
            have h6 : p z = false := hh z
              (by rw [he]; exact List.mem_append_right _ (List.mem_cons_self z h5))
            have h7 : p c = true := hseps c (List.mem_cons_self c cs)
            rw [hzc] at h6
            rw [h6] at h7
            exact Bool.false_ne_true h7

/-- C3 counterexample: a reference line preceded by whitespace is not
matched by the rewrite pattern (the `^` anchor sees a whitespace character,
which neither alternative accepts), so the line passes through verbatim and
the origin host `h.ex` appears in the rewritten output. -/
theorem claimC3_counterexample :
    "h.ex".data <:+:
      (rewritePlaylist "o" "S" "q" "master.m3u8" " https://h.ex/v.m3u8").data :=
  ⟨" https://".data, "/v.m3u8".data, by decide⟩

/-- C3 amended: non-leakage holds segment-locally.  If the origin host (a
nonempty string free of LineTerminators) occurs in no individual rewritten
LineTerminator-delimited segment — in particular not in any segment copied
verbatim (directive or comment segments, empty segments,
whitespace-prefixed or otherwise unmatched segments, and the unmatched
remainder after a match) and not in any replacement URL — then it does not
occur in the rewritten playlist body.  Stated for 8-bit bodies and quality
strings, on which the model of `btoa` is faithful.  Unconditionally the
claim is false, see the counterexample. -/
theorem claimC3_noLeak (origin session quality filename body host : String)
    (hbody : ∀ c ∈ body.data, c.toNat < 256)
    (hqual : ∀ c ∈ quality.data, c.toNat < 256)
    (h1 : host.data ≠ []) (h2 : ∀ c ∈ host.data, jsLineTerm c = false)
    (h3 : ∀ l ∈ splitSegsP jsLineTerm body.data,
      ¬ host.data <:+: rewriteLine origin.data session.data quality.data filename.data l) :
    ¬ host.data <:+: (rewritePlaylist origin session quality filename body).data := by
  have heq : (rewritePlaylist origin session quality filename body).data
      = joinSegs ((splitSegsP jsLineTerm body.data).map
          (rewriteLine origin.data session.data quality.data filename.data))
        (body.data.filter jsLineTerm) := rfl
  rw [heq]
  apply notInfixJoinSegs h1 h2
  · exact fun d hd => (List.mem_filter.mp hd).2
  · intro l hl
    obtain ⟨l0, hl0, rfl⟩ := List.mem_map.mp hl
    exact h3 l0 hl0

theorem claimC3_noLeak_witness :
    ¬ ("up.ex" : String).data <:+:
      (rewritePlaylist "https://proxy.test" "S" "q" "master.m3u8"
        "#EXTM3U\nhttps://up.ex/1080p/index.m3u8").data :=
  claimC3_noLeak "https://proxy.test" "S" "q" "master.m3u8"
    "#EXTM3U\nhttps://up.ex/1080p/index.m3u8" "up.ex"
    (by decide) (by decide) (by decide) (by decide) (by decide)

/-- C6 counterexample: for a session id of fewer than 20 characters (here
`abc`, never stored), the 404 diagnostic shows `abc...`, which contains the
session id in full — the `substring(0, 20)` truncation only hides ids longer
than 20 characters, so the claim's `never in full` is false. -/
theorem claimC6_counterexample :
    (handleDatacrateProxy 0 [] "/file2/abc/NzIwcA/aW5kZXgubTN1OA.m3u8").1
        = .sessionNotFound "abc..."
      ∧ ("abc" : String).data <:+: ("abc..." : String).data := by
  exact ⟨by decide, by decide⟩

/-- C6 amended: for a well-formed request (5 path parts, both tokens
decodable) whose session id is absent from the store, or present but
expired (nonzero `expiresAt` strictly in the past), the handler returns the
404 `sessionNotFound` result — hence performs no upstream fetch — showing
the id truncated to its first 20 characters followed by `...` (ids of at
most 20 characters therefore appear in full); an expired entry is deleted
from the store by that read, an absent id leaves the store unchanged. -/
theorem claimC6_notFound (now : Nat) (st : SessionStore) (pathname : String)
    (h5 : 5 ≤ (jsSplitSlash pathname).length) (q f : String)
    (hq : decode ((jsSplitSlash pathname).getD 3 "") = some q)
    (hf : decode (stripM3u8Once ((jsSplitSlash pathname).getD 4 "")) = some f) :
    (st.lookup ((jsSplitSlash pathname).getD 2 "") = none →
      handleDatacrateProxy now st pathname =
        (.sessionNotFound
          ((⟨((jsSplitSlash pathname).getD 2 "").data.take 20⟩ : String) ++ "..."), st))
    ∧ (∀ s, st.lookup ((jsSplitSlash pathname).getD 2 "") = some s →
        s.expiresAt ≠ 0 → now > s.expiresAt →
        handleDatacrateProxy now st pathname =
          (.sessionNotFound
            ((⟨((jsSplitSlash pathname).getD 2 "").data.take 20⟩ : String) ++ "..."),
            eraseKey ((jsSplitSlash pathname).getD 2 "") st))
    ∧ (∀ r, handleDatacrateProxy now st pathname = r →
        r.1 = .sessionNotFound
          ((⟨((jsSplitSlash pathname).getD 2 "").data.take 20⟩ : String) ++ "...") →
        isUpstreamFetch r.1 = false) := by
  refine ⟨?_, ?_, ?_⟩
  · intro hnone
    unfold handleDatacrateProxy
    rw [if_neg (by omega)]
    simp only [hq, hf]
    unfold getSession
    rw [hnone]
  · intro s hsome hne hgt
    unfold handleDatacrateProxy
    rw [if_neg (by omega)]
    simp only [hq, hf]
    unfold getSession
    simp only [hsome]
    rw [if_pos ⟨hne, hgt⟩]
  · intro r _ hr
    rw [hr]
    rfl

theorem claimC6_notFound_witness :
    handleDatacrateProxy 0 [] "/file2/abc/NzIwcA/aW5kZXgubTN1OA.m3u8"
      = (.sessionNotFound "abc...", []) :=
  (claimC6_notFound 0 [] "/file2/abc/NzIwcA/aW5kZXgubTN1OA.m3u8" (by decide)
    "720p" "index.m3u8" (by decide) (by decide)).1 (by decide)

/-- C7: for every store (whatever it contains) and every well-formed
request path (5 parts) in which the quality token or the filename token
fails to decode, the handler answers the 400 `Failed to decode URL` result
and returns the store exactly as it was: both tokens are decoded strictly
before the session lookup, so the store is neither read nor mutated. -/
theorem claimC7_decodeError (now : Nat) (st : SessionStore) (pathname : String)
    (h5 : 5 ≤ (jsSplitSlash pathname).length)
    (hbad : decode ((jsSplitSlash pathname).getD 3 "") = none ∨
      decode (stripM3u8Once ((jsSplitSlash pathname).getD 4 "")) = none) :
    handleDatacrateProxy now st pathname = (.decodeError, st) := by
  unfold handleDatacrateProxy
  rw [if_neg (by omega)]
  rcases hbad with hq | hf
  · simp only [hq]
  · cases hq2 : decode ((jsSplitSlash pathname).getD 3 "") with
    | none => simp only [hq2]
    | some q => simp only [hq2, hf]

theorem claimC7_decodeError_witness :
    handleDatacrateProxy 0 [] "/file2/abc/!!/x" = (.decodeError, []) :=
  claimC7_decodeError 0 [] "/file2/abc/!!/x" (by decide) (Or.inl (by decide))

/-- C8 counterexample: with the `originalUrl` field missing, the handler
answers 400 whose error message is `sessionId and originalUrl are
required` — not the string `sessionId and originUrl are required` given by
the claim (the source field is named `originalUrl`, not `originUrl`). -/
theorem claimC8_counterexample :
    handleStoreSession "POST" (some ⟨some "abc", none, []⟩) 0 []
        = (.missingFields "sessionId and originalUrl are required", [])
      ∧ ("sessionId and originalUrl are required" : String)
          ≠ "sessionId and originUrl are required" := by
  exact ⟨by decide, by decide⟩

/-- C8 amended: on a parsed `POST` body, if the `sessionId` field or the
`originalUrl` field is missing or empty (JavaScript falsiness), the result
is the 400 error `sessionId and originalUrl are required`; if both are
present and nonempty the result is the 200 success carrying the session id,
and the session is stored. -/
theorem claimC8_storeSession (b : StoreBody) (now : Nat) (st : SessionStore) :
    ((jsFalsyStr b.sessionId || jsFalsyStr b.originalUrl) = true →
      handleStoreSession "POST" (some b) now st
        = (.missingFields "sessionId and originalUrl are required", st))
    ∧ (∀ sid u, b.sessionId = some sid → sid ≠ "" → b.originalUrl = some u → u ≠ "" →
      handleStoreSession "POST" (some b) now st
        = (.success sid, storeSession sid u b.metadata now st)) := by
  constructor
  · intro hfal
    unfold handleStoreSession
    rw [if_neg (by decide)]
    simp only [hfal]
    rfl
  · intro sid u hsid hsne hu hune
    have h1 : jsFalsyStr (some sid) = false := by
      simp [jsFalsyStr, hsne]
    have h2 : jsFalsyStr (some u) = false := by
      simp [jsFalsyStr, hune]
    unfold handleStoreSession
    rw [if_neg (by decide)]
    simp only [hsid, hu, h1, h2, Bool.or_self]
    rw [if_neg (by decide)]
    rfl

theorem claimC8_storeSession_witness :
    handleStoreSession "POST" (some ⟨some "s1", some "https://up.ex/m.m3u8", []⟩) 7 []
      = (.success "s1", storeSession "s1" "https://up.ex/m.m3u8" [] 7 []) :=
  (claimC8_storeSession ⟨some "s1", some "https://up.ex/m.m3u8", []⟩ 7 []).2
    "s1" "https://up.ex/m.m3u8" rfl (by decide) rfl (by decide)

theorem routeLegacyOfStream (p : String) (h : "/stream/".data.isPrefixOf p.data = true) :
    route p = .legacy := by
  have hp1 : "/stream/".data <+: p.data := ( List.isPrefixOf_iff_prefix).mp h
  have h1 : "/store-session".data.isPrefixOf p.data = false := by
    cases hb : "/store-session".data.isPrefixOf p.data with
    | false => rfl
    | true =>
      have hp2 : "/store-session".data <+: p.data := ( List.isPrefixOf_iff_prefix).mp hb
      rcases List.prefix_or_prefix_of_prefix hp1 hp2 with hc | hc
      · exact absurd hc (by decide)
      · exact absurd hc (by decide)
  have h2 : "/file2/".data.isPrefixOf p.data = false := by
    cases hb : "/file2/".data.isPrefixOf p.data with
    | false => rfl
    | true =>
      have hp2 : "/file2/".data <+: p.data := ( List.isPrefixOf_iff_prefix).mp hb
      rcases List.prefix_or_prefix_of_prefix hp1 hp2 with hc | hc
      · exact absurd hc (by decide)
      · exact absurd hc (by decide)
  simp [route, h1, h2, h]

/-- C9 counterexample: the path `/stream/a/b/c` is under the legacy prefix
but has fewer than 5 nonempty segments, and the legacy handler answers the
plain 400 `Invalid legacy URL format`, not 410 Gone — so `regardless of how
many path segments` is false. -/
theorem claimC9_counterexample :
    "/stream/".data.isPrefixOf ("/stream/a/b/c" : String).data = true
      ∧ legacyStatus (handleLegacyProxy "/stream/a/b/c") ≠ 410 := by
  exact ⟨by decide, by decide⟩

/-- C9 amended: a request whose path is under the legacy `/stream/` prefix
is routed to the legacy handler; when the path has at least 5 nonempty
segments the response is the 410 Gone error with the structured body
describing the current datacrate format, and with fewer than 5 nonempty
segments it is the plain 400 `Invalid legacy URL format`. -/
theorem claimC9_legacyGone (p : String) (h : "/stream/".data.isPrefixOf p.data = true) :
    route p = .legacy
    ∧ (5 ≤ ((jsSplitSlash p).filter (fun s => s ≠ "")).length →
        handleLegacyProxy p = .gone "Legacy format deprecated"
          "Please use the datacrate format: /file2/[session]/[quality]/[filename].m3u8"
          "file2/[sessionPath]/[qualityBase64]/[filenameBase64].m3u8"
          "/file2/abc123/cXVhbGl0eQ==/cGxheWxpc3QubTN1OA==.m3u8"
        ∧ legacyStatus (handleLegacyProxy p) = 410)
    ∧ (((jsSplitSlash p).filter (fun s => s ≠ "")).length < 5 →
        handleLegacyProxy p = .invalidFormat
        ∧ legacyStatus (handleLegacyProxy p) = 400) := by
  refine ⟨routeLegacyOfStream p h, ?_, ?_⟩
  · intro hlen
    have he : handleLegacyProxy p = .gone "Legacy format deprecated"
        "Please use the datacrate format: /file2/[session]/[quality]/[filename].m3u8"
        "file2/[sessionPath]/[qualityBase64]/[filenameBase64].m3u8"
        "/file2/abc123/cXVhbGl0eQ==/cGxheWxpc3QubTN1OA==.m3u8" := by
      unfold handleLegacyProxy
      rw [if_neg (by omega)]
    exact ⟨he, by rw [he]; rfl⟩
  · intro hlen
    have he : handleLegacyProxy p = .invalidFormat := by
      unfold handleLegacyProxy
      rw [if_pos (by omega)]
    exact ⟨he, by rw [he]; rfl⟩

theorem claimC9_legacyGone_witness :
    handleLegacyProxy "/stream/a/b/c/d" = .gone "Legacy format deprecated"
        "Please use the datacrate format: /file2/[session]/[quality]/[filename].m3u8"
        "file2/[sessionPath]/[qualityBase64]/[filenameBase64].m3u8"
        "/file2/abc123/cXVhbGl0eQ==/cGxheWxpc3QubTN1OA==.m3u8"
      ∧ legacyStatus (handleLegacyProxy "/stream/a/b/c/d") = 410 :=
  (claimC9_legacyGone "/stream/a/b/c/d" (by decide)).2.1 (by decide)

/-- C10: the playlist fetch targets `dirname(originUrl)/quality/index.m3u8`
(the decoded quality spliced verbatim between two slashes) exactly for the
literal decoded filenames `index.m3u8` and `playlist.m3u8`; every other
filename reaching the playlist path — `master.m3u8` included — fetches the
session's stored `originalUrl` itself, the requested filename being
ignored. -/
theorem claimC10_targetUrl (originalUrl filename quality : String) :
    ((filename = "index.m3u8" ∨ filename = "playlist.m3u8") →
      computeTargetUrl originalUrl filename quality
        = (⟨jsDirname originalUrl.data⟩ : String) ++ "/" ++ quality ++ "/index.m3u8")
    ∧ (filename ≠ "index.m3u8" → filename ≠ "playlist.m3u8" →
      computeTargetUrl originalUrl filename quality = originalUrl) := by
  constructor
  · intro hor
    have hmaster : filename ≠ "master.m3u8" := by
      rcases hor with rfl | rfl <;> decide
    unfold computeTargetUrl
    rw [if_neg hmaster, if_pos hor]
  · intro h1 h2
    unfold computeTargetUrl
    by_cases hm : filename = "master.m3u8"
    · rw [if_pos hm]
    · rw [if_neg hm, if_neg (fun h => h.elim h1 h2)]

theorem claimC10_targetUrl_witness :
    computeTargetUrl "https://up.ex/v/master.m3u8" "playlist.m3u8" "720p"
      = (⟨jsDirname ("https://up.ex/v/master.m3u8" : String).data⟩ : String)
          ++ "/" ++ "720p" ++ "/index.m3u8" :=
  (claimC10_targetUrl "https://up.ex/v/master.m3u8" "playlist.m3u8" "720p").1 (Or.inr rfl)

theorem b64val_b64char : ∀ n, n < 64 → b64val (b64char n) = some n := by decide

theorem b64char_ne_eqChar (n : Nat) : b64char n ≠ '=' := by
  rcases b64char_cases n with h | h
  · intro he
    rw [he] at h
    exact absurd h (by decide)
  · rw [h]
    decide

theorem bne_b64char (n : Nat) : (b64char n != '=') = true :=
  bne_iff_ne.mpr (b64char_ne_eqChar n)

theorem dropTrailingEq_append_eqeq (l : List Char) (h : ∀ c ∈ l, c ≠ '=') :
    dropTrailingEq (l ++ ['=', '=']) = l := by
  unfold dropTrailingEq
  rw [List.reverse_append]
  show (List.dropWhile (· == '=') ('=' :: '=' :: l.reverse)).reverse = l
  rw [List.dropWhile_cons, if_pos (by decide), List.dropWhile_cons, if_pos (by decide)]
  have h2 : l.reverse.dropWhile (· == '=') = l.reverse := by
    cases hr : l.reverse with
    | nil => rfl
    | cons x xs =>
      rw [List.dropWhile_cons]
      have hx : x ≠ '=' := h x (by rw [← List.mem_reverse, hr]; simp)
      rw [if_neg (by simpa using hx)]
  rw [h2, List.reverse_reverse]

theorem encodeBytesSpec : ∀ bl : List Nat, (∀ b ∈ bl, b < 256) →
    ((btoaBytes bl).filter (fun c => c != '=')).all (fun c => (b64val c).isSome) = true
    ∧ ((btoaBytes bl).filter (fun c => c != '=')).length % 4 ≠ 1
    ∧ decode4 (((btoaBytes bl).filter (fun c => c != '=')).map (fun c => (b64val c).getD 0))
        = bl := by
  intro bl
  induction bl using btoaBytes.induct with
  | case1 =>
    intro _
    exact ⟨rfl, by decide, rfl⟩
  | case2 b1 =>
    intro h
    have hb1 : b1 < 256 := h b1 (by simp)
    have hfil : (btoaBytes [b1]).filter (fun c => c != '=')
        = [b64char (b1 / 4), b64char (b1 % 4 * 16)] := by
      show (List.filter (fun c => c != '=')
        [b64char (b1 / 4), b64char (b1 % 4 * 16), '=', '=']) = _
      rw [List.filter_cons, bne_b64char, List.filter_cons, bne_b64char]
      rfl
    rw [hfil]
    refine ⟨?_, by simp only [List.length_cons, List.length_nil]; omega, ?_⟩
    · simp only [List.all_cons, List.all_nil,
        b64val_b64char _ (by omega : b1 / 4 < 64),
        b64val_b64char _ (by omega : b1 % 4 * 16 < 64)]
      rfl
    · simp only [List.map_cons, List.map_nil,
        b64val_b64char _ (by omega : b1 / 4 < 64),
        b64val_b64char _ (by omega : b1 % 4 * 16 < 64), Option.getD_some]
      show [b1 / 4 * 4 + b1 % 4 * 16 / 16] = [b1]
      simp only [List.cons.injEq, and_true]
      omega
  | case3 b1 b2 =>
    intro h
    have hb1 : b1 < 256 := h b1 (by simp)
    have hb2 : b2 < 256 := h b2 (by simp)
    have hfil : (btoaBytes [b1, b2]).filter (fun c => c != '=')
        = [b64char (b1 / 4), b64char (b1 % 4 * 16 + b2 / 16), b64char (b2 % 16 * 4)] := by
      show (List.filter (fun c => c != '=')
        [b64char (b1 / 4), b64char (b1 % 4 * 16 + b2 / 16), b64char (b2 % 16 * 4), '=']) = _
      rw [List.filter_cons, bne_b64char, List.filter_cons, bne_b64char,
        List.filter_cons, bne_b64char]
      rfl
    rw [hfil]
    refine ⟨?_, by simp only [List.length_cons, List.length_nil]; omega, ?_⟩
    · simp only [List.all_cons, List.all_nil,
        b64val_b64char _ (by omega : b1 / 4 < 64),
        b64val_b64char _ (by omega : b1 % 4 * 16 + b2 / 16 < 64),
        b64val_b64char _ (by omega : b2 % 16 * 4 < 64)]
      rfl
    · simp only [List.map_cons, List.map_nil,
        b64val_b64char _ (by omega : b1 / 4 < 64),
        b64val_b64char _ (by omega : b1 % 4 * 16 + b2 / 16 < 64),
        b64val_b64char _ (by omega : b2 % 16 * 4 < 64), Option.getD_some]
      show [b1 / 4 * 4 + (b1 % 4 * 16 + b2 / 16) / 16,
        (b1 % 4 * 16 + b2 / 16) % 16 * 16 + b2 % 16 * 4 / 4] = [b1, b2]
      simp only [List.cons.injEq, and_true]
      refine ⟨by omega, by omega⟩
  | case4 b1 b2 b3 rest ih =>
    intro h
    have hb1 : b1 < 256 := h b1 (by simp)
    have hb2 : b2 < 256 := h b2 (by simp)
    have hb3 : b3 < 256 := h b3 (by simp)
    obtain ⟨ih1, ih2, ih3⟩ := ih (fun b hb => h b (by simp [hb]))
    have hfil : (btoaBytes (b1 :: b2 :: b3 :: rest)).filter (fun c => c != '=')
        = b64char (b1 / 4) :: b64char (b1 % 4 * 16 + b2 / 16) ::
            b64char (b2 % 16 * 4 + b3 / 64) :: b64char (b3 % 64) ::
            (btoaBytes rest).filter (fun c => c != '=') := by
      show (List.filter (fun c => c != '=')
        (b64char (b1 / 4) :: b64char (b1 % 4 * 16 + b2 / 16) ::
          b64char (b2 % 16 * 4 + b3 / 64) :: b64char (b3 % 64) :: btoaBytes rest)) = _
      rw [List.filter_cons, bne_b64char, List.filter_cons, bne_b64char,
        List.filter_cons, bne_b64char, List.filter_cons, bne_b64char]
      rfl
    rw [hfil]
    refine ⟨?_, ?_, ?_⟩
    · simp only [List.all_cons,
        b64val_b64char _ (by omega : b1 / 4 < 64),
        b64val_b64char _ (by omega : b1 % 4 * 16 + b2 / 16 < 64),
        b64val_b64char _ (by omega : b2 % 16 * 4 + b3 / 64 < 64),
        b64val_b64char _ (by omega : b3 % 64 < 64)]
      simpa using ih1
    · simp only [List.length_cons]
      omega
    · simp only [List.map_cons,
        b64val_b64char _ (by omega : b1 / 4 < 64),
        b64val_b64char _ (by omega : b1 % 4 * 16 + b2 / 16 < 64),
        b64val_b64char _ (by omega : b2 % 16 * 4 + b3 / 64 < 64),
        b64val_b64char _ (by omega : b3 % 64 < 64), Option.getD_some]
      show (b1 / 4 * 4 + (b1 % 4 * 16 + b2 / 16) / 16) ::
          ((b1 % 4 * 16 + b2 / 16) % 16 * 16 + (b2 % 16 * 4 + b3 / 64) / 4) ::
          ((b2 % 16 * 4 + b3 / 64) % 4 * 64 + b3 % 64) ::
          decode4 (((btoaBytes rest).filter (fun c => c != '=')).map
            (fun c => (b64val c).getD 0)) = b1 :: b2 :: b3 :: rest
      rw [ih3]
      simp only [List.cons.injEq]
      refine ⟨by omega, by omega, by omega, trivial⟩

theorem atob_encode_bytes (bl : List Nat) (h : ∀ b ∈ bl, b < 256) :
    atobBytes ((btoaBytes bl).filter (fun c => c != '=') ++ ['=', '=']) = some bl := by
  obtain ⟨h1, h2, h3⟩ := encodeBytesSpec bl h
  have hne : ∀ c ∈ (btoaBytes bl).filter (fun c => c != '='), c ≠ '=' :=
    fun c hc => bne_iff_ne.mp (List.mem_filter.mp hc).2
  simp only [atobBytes]
  rw [dropTrailingEq_append_eqeq _ hne]
  rw [if_pos h1]
  rw [if_neg (by simpa using h2)]
  rw [h3]

/-- C1: Addressing Codec round trip.  For every ASCII string without an
embedded NUL (the domain of quality tags and filenames), decoding the
encoding gives back the string: the encoder strips the trailing `=`
padding, the decoder always re-appends the fixed two-character pad `==`,
and the runtime's transform tolerates the excess padding — also in the
no-padding case, where the byte length is divisible by 3 and both appended
`=` are excess. -/
theorem claimC1_roundtrip (s : String) (h : ∀ c ∈ s.data, c.toNat ≠ 0 ∧ c.toNat < 128) :
    decode (encode s) = some s := by
  have hb : ∀ b ∈ s.data.map Char.toNat, b < 256 := by
    intro b hbm
    obtain ⟨c, hc, rfl⟩ := List.mem_map.mp hbm
    have := (h c hc).2
    omega
  have hstep : decode (encode s)
      = (atobBytes ((btoaBytes (s.data.map Char.toNat)).filter (fun c => c != '=')
          ++ ['=', '='])).map (fun bs => (⟨bs.map Char.ofNat⟩ : String)) := rfl
  rw [hstep, atob_encode_bytes _ hb]
  show some (⟨(s.data.map Char.toNat).map Char.ofNat⟩ : String) = some s
  rw [List.map_map]
  have hmap : s.data.map (Char.ofNat ∘ Char.toNat) = s.data.map id :=
    List.map_congr_left (fun c _ => Char.ofNat_toNat c)
  rw [hmap, List.map_id]

theorem claimC1_roundtrip_witness :
    (∀ c ∈ ("abc" : String).data, c.toNat ≠ 0 ∧ c.toNat < 128)
      ∧ decode (encode "abc") = some "abc" :=
  ⟨by decide, claimC1_roundtrip "abc" (by decide)⟩
